import Mathlib

/-!
Shallow embedding of the lotus-gpu-miner mining engine
(src/lotus-miner-lib/src/{sha256.rs, miner.rs, block.rs, lib.rs}).

Bytes are modelled as `Nat` values below 256, byte arrays as `List Nat`,
32-bit and 64-bit machine integers as `Nat` with explicit `% 2^32` / `% 2^64`
where the source wraps.  Fallible steps (the `try_into().unwrap()` inside
`find_nonce`) are modelled with `Option`; log output is modelled as an
explicit list of severity-tagged messages returned by each embedded function.
-/

namespace LotusMiner

/-- Truncation to a 32-bit word, the implicit wrap-around of Rust `u32`. -/
def u32 (x : Nat) : Nat := x % 4294967296

/-- Right rotation of a 32-bit word, as used by the SHA-256 compression. -/
def rotr (n x : Nat) : Nat := u32 ((x >>> n) ||| (x <<< (32 - n)))

/-- The 64 SHA-256 round constants (FIPS 180-4), as used by the `sha2` crate. -/
def K : List Nat := [1116352408, 1899447441, 3049323471, 3921009573, 961987163, 1508970993, 2453635748, 2870763221, 3624381080, 310598401, 607225278, 1426881987, 1925078388, 2162078206, 2614888103, 3248222580, 3835390401, 4022224774, 264347078, 604807628, 770255983, 1249150122, 1555081692, 1996064986, 2554220882, 2821834349, 2952996808, 3210313671, 3336571891, 3584528711, 113926993, 338241895, 666307205, 773529912, 1294757372, 1396182291, 1695183700, 1986661051, 2177026350, 2456956037, 2730485921, 2820302411, 3259730800, 3345764771, 3516065817, 3600352804, 4094571909, 275423344, 430227734, 506948616, 659060556, 883997877, 958139571, 1322822218, 1537002063, 1747873779, 1955562222, 2024104815, 2227730452, 2361852424, 2428436474, 2756734187, 3204031479, 3329325298]

/-- The eight 32-bit words of SHA-256 chaining state. -/
structure Hs where
  a : Nat
  b : Nat
  c : Nat
  d : Nat
  e : Nat
  f : Nat
  g : Nat
  h : Nat
deriving DecidableEq

/-- SHA-256 initial chaining state (FIPS 180-4). -/
def initHs : Hs := ⟨1779033703, 3144134277, 1013904242, 2773480762, 1359893119, 2600822924, 528734635, 1541459225⟩

/-- SHA-256 Sigma0. -/
def bigSigma0 (x : Nat) : Nat := u32 (rotr 2 x ^^^ rotr 13 x ^^^ rotr 22 x)

/-- SHA-256 Sigma1. -/
def bigSigma1 (x : Nat) : Nat := u32 (rotr 6 x ^^^ rotr 11 x ^^^ rotr 25 x)

/-- SHA-256 sigma0. -/
def smallSigma0 (x : Nat) : Nat := u32 (rotr 7 x ^^^ rotr 18 x ^^^ (x >>> 3))

/-- SHA-256 sigma1. -/
def smallSigma1 (x : Nat) : Nat := u32 (rotr 17 x ^^^ rotr 19 x ^^^ (x >>> 10))

/-- SHA-256 Ch; 32-bit complement written as xor with `0xffffffff`. -/
def chV (e f g : Nat) : Nat := (e &&& f) ^^^ (u32 (e ^^^ 4294967295) &&& g)

/-- SHA-256 Maj. -/
def majV (a b c : Nat) : Nat := (a &&& b) ^^^ (a &&& c) ^^^ (b &&& c)

/-- One SHA-256 compression round. -/
def stepRound (x : Hs) (k w : Nat) : Hs :=
  let t1 := u32 (x.h + bigSigma1 x.e + chV x.e x.f x.g + k + w)
  let t2 := u32 (bigSigma0 x.a + majV x.a x.b x.c)
  ⟨u32 (t1 + t2), x.a, x.b, x.c, u32 (x.d + t1), x.e, x.f, x.g⟩

/-- Group a byte list into big-endian 32-bit words. -/
def toWordsBE : List Nat → List Nat
  | b0 :: b1 :: b2 :: b3 :: rest => (b0 * 16777216 + b1 * 65536 + b2 * 256 + b3) :: toWordsBE rest
  | _ => []

/-- Extend the 16-word message block by `n` further schedule words. -/
def extendSchedule (ws : List Nat) : Nat → List Nat
  | 0 => ws
  | n + 1 =>
    let prev := extendSchedule ws n
    let len := prev.length
    prev ++ [u32 (prev.get! (len - 16) + smallSigma0 (prev.get! (len - 15)) + prev.get! (len - 7) + smallSigma1 (prev.get! (len - 2)))]

/-- Full 64-word message schedule of one 64-byte block. -/
def schedule (block : List Nat) : List Nat := extendSchedule (toWordsBE block) 48

/-- SHA-256 compression of one 64-byte block into the chaining state. -/
def processBlock (h0 : Hs) (block : List Nat) : Hs :=
  let ws := schedule block
  let fin := (List.zip K ws).foldl (fun acc kw => stepRound acc kw.1 kw.2) h0
  ⟨u32 (h0.a + fin.a), u32 (h0.b + fin.b), u32 (h0.c + fin.c), u32 (h0.d + fin.d),
   u32 (h0.e + fin.e), u32 (h0.f + fin.f), u32 (h0.g + fin.g), u32 (h0.h + fin.h)⟩

/-- Big-endian serialization of a 32-bit word into four bytes. -/
def beBytes4 (w : Nat) : List Nat := [w / 16777216 % 256, w / 65536 % 256, w / 256 % 256, w % 256]

/-- Big-endian serialization of a 64-bit value into eight bytes. -/
def beBytes8 (n : Nat) : List Nat := beBytes4 (n / 4294967296) ++ beBytes4 n

/-- SHA-256 padding: `0x80`, zeros to 56 mod 64, then the 64-bit bit length. -/
def pad (msg : List Nat) : List Nat :=
  msg ++ [128] ++ List.replicate ((119 - msg.length % 64) % 64) 0 ++ beBytes8 (msg.length * 8)

/-- Fold the compression function over `n` consecutive 64-byte blocks. -/
def processBlocks (h0 : Hs) (data : List Nat) : Nat → Hs
  | 0 => h0
  | n + 1 => processBlocks (processBlock h0 (data.take 64)) (data.drop 64) n

/-- Serialize the final chaining state into the 32-byte digest. -/
def serializeHs (x : Hs) : List Nat :=
  beBytes4 x.a ++ beBytes4 x.b ++ beBytes4 x.c ++ beBytes4 x.d ++ beBytes4 x.e ++ beBytes4 x.f ++ beBytes4 x.g ++ beBytes4 x.h

/-- SHA-256 of a byte string, the behaviour of `sha2::Sha256::digest`. -/
def sha256 (msg : List Nat) : List Nat :=
  let padded := pad msg
  serializeHs (processBlocks initHs padded (padded.length / 64))

/-- The chain-specific header hash, from `sha256.rs::lotus_hash`:
`pow_layer` is header bytes 32..52 followed by the digest of bytes 52..,
`chain_layer` is header bytes 0..32 followed by the digest of `pow_layer`,
and the result is the digest of `chain_layer`. -/
def lotus_hash (header : List Nat) : List Nat :=
  let tx_layer_hash := sha256 (header.drop 52)
  let pow_layer := (header.drop 32).take 20 ++ tx_layer_hash
  let pow_layer_hash := sha256 pow_layer
  let chain_layer := header.take 32 ++ pow_layer_hash
  sha256 chain_layer

/-- The 160-byte header of the `test_lotus_hash` test vector in `sha256.rs`. -/
def testHeader : List Nat := [0, 0, 0, 0, 0, 0, 0, 0, 0, 0, 0, 0, 0, 0, 0, 0, 0, 0, 0, 0, 0, 0, 0, 0, 0, 0, 0, 0, 0, 0, 0, 0, 255, 255, 0, 29, 0, 194, 115, 96, 0, 0, 0, 0, 65, 198, 221, 211, 3, 0, 0, 0, 1, 14, 1, 0, 0, 0, 0, 0, 0, 0, 0, 0, 0, 0, 0, 0, 0, 0, 0, 0, 0, 0, 0, 0, 0, 0, 0, 0, 0, 0, 0, 0, 0, 0, 0, 0, 0, 0, 0, 0, 0, 0, 0, 0, 147, 71, 85, 214, 14, 144, 94, 200, 119, 143, 85, 65, 100, 189, 155, 127, 33, 171, 108, 21, 207, 237, 41, 86, 18, 58, 114, 42, 111, 111, 166, 46, 20, 6, 224, 88, 129, 226, 153, 54, 119, 102, 211, 19, 226, 108, 5, 86, 78, 201, 27, 247, 33, 211, 23, 38, 189, 110, 70, 230, 6, 137, 83, 154]

/-- The expected display-order hash of `testHeader`, byte list of
`000000006275dc5039da85620773f3223d629759495f80b49a381d79cae77c11`. -/
def testHeaderHash : List Nat := [0, 0, 0, 0, 98, 117, 220, 80, 57, 218, 133, 98, 7, 115, 243, 34, 61, 98, 151, 89, 73, 95, 128, 180, 154, 56, 29, 121, 202, 231, 124, 17]

/-- Little-endian value of a byte list, as `u64::from_le_bytes` reads bytes. -/
def fromLeBytes : List Nat → Nat
  | [] => 0
  | b :: rest => b + 256 * fromLeBytes rest

/-- The `k` little-endian bytes of `n`, as `to_le_bytes` writes a `k`-byte
machine integer. -/
def toLeBytes : Nat → Nat → List Nat
  | 0, _ => []
  | k + 1, n => n % 256 :: toLeBytes k (n / 256)

/-- Byte-order reversal of a 32-bit word, the behaviour of `u32::swap_bytes`. -/
def swapBytes32 (x : Nat) : Nat :=
  x % 256 * 16777216 + x / 256 % 256 * 65536 + x / 65536 % 256 * 256 + x / 16777216 % 256

/-- Big-endian numeric value of a byte list (first byte most significant). -/
def beNum : List Nat → Nat
  | [] => 0
  | b :: rest => b * 256 ^ rest.length + beNum rest

/-- `miner.rs::Work`: the candidate header, its target, and the slice index. -/
structure Work where
  header : List Nat
  target : List Nat
  nonce_idx : Nat
deriving DecidableEq

/-- `Work::from_header`. -/
def Work.from_header (header target : List Nat) : Work :=
  ⟨header, target, 0⟩

/-- `Work::set_big_nonce`: overwrite header bytes 44..52 with the eight
little-endian bytes of the 64-bit nonce. -/
def Work.set_big_nonce (w : Work) (big_nonce : Nat) : Work :=
  { w with header := w.header.take 44 ++ (toLeBytes 8 big_nonce ++ w.header.drop 52) }

/-- `miner.rs::MiningSettings`; the two `i32` fields are kept as `Int`. -/
structure MiningSettings where
  local_work_size : Int
  kernel_size : Nat
  inner_iter_size : Int
  kernel_name : String
  sleep : Nat
  gpu_indices : List Nat

/-- Cast of an `i32` value to `u64`, sign extension included. -/
def u64OfI32 (x : Int) : Nat := (x % 18446744073709551616).toNat

/-- `Miner::num_nonces_per_search`: `kernel_size as u64 * inner_iter_size as u64`. -/
def num_nonces_per_search (s : MiningSettings) : Nat :=
  (s.kernel_size * u64OfI32 s.inner_iter_size) % 18446744073709551616

/-- `u32::checked_mul`: the product, unless it overflows 32 bits. -/
def checked_mul_u32 (a b : Nat) : Option Nat :=
  if a * b < 4294967296 then some (a * b) else none

/-- `Miner::has_nonces_left`: `nonce_idx.checked_mul(kernel_size).is_some()`. -/
def has_nonces_left (s : MiningSettings) (w : Work) : Bool :=
  (checked_mul_u32 w.nonce_idx s.kernel_size).isSome

/-- Log severities of `lib.rs::LogSeverity`. -/
inductive Sev where
  | info
  | warn
  | error
  | bug
deriving DecidableEq

/-- The log messages the embedded functions emit, one constructor per
distinct message of the source, carrying the data interpolated into it. -/
inductive Msg where
  | candidate (nonce : Nat) (displayHash : List Nat)
  | bugNoLeadingZero
  | nonceBaseOverflow
  | blockAccepted
  | rejectedBlock (reason : String)
  | inconclusiveHint
  | misconfiguredHint
  | switchedTip (prevHashDisplayed : List Nat)
  | startedMining (prevHashDisplayed : List Nat)
deriving DecidableEq

/-- One log entry: severity plus message. -/
structure MLog where
  sev : Sev
  msg : Msg
deriving DecidableEq

/-- The candidate-versus-target byte loop of `find_nonce`, run on the
already-reversed zipped byte pairs: reject the candidate at the first pair
whose hash byte is larger, accept at the first pair whose hash byte is
smaller, fall through (reject) on full equality. -/
def cmpGo : List (Nat × Nat) → Bool
  | [] => false
  | (h, t) :: rest => if t < h then false else if h < t then true else cmpGo rest

/-- `for (&h, &t) in hash.iter().zip(work.target.iter()).rev()`: the zipped
byte pairs are walked from the last byte towards the first. -/
def hashMeetsTarget (hash target : List Nat) : Bool :=
  cmpGo ((hash.zip target).reverse)

/-- `header[44..48].copy_from_slice(&nonce.to_le_bytes())` on a copy of the
work header. -/
def spliceNonce (header : List Nat) (nonce : Nat) : List Nat :=
  header.take 44 ++ (toLeBytes 4 nonce ++ header.drop 48)

/-- `u64::from_le_bytes(header[44..52])` after splicing the 32-bit candidate. -/
def result_nonce (header : List Nat) (nonce : Nat) : Nat :=
  fromLeBytes (((spliceNonce header nonce).drop 44).take 8)

/-- The candidate-extraction loop of `find_nonce` over the output-buffer
slots: byte-swap each raw word, skip zero, splice the candidate into the
header, hash, log the candidate, log a bug when the hash's final byte is not
zero, and accept the first candidate passing the target comparison. -/
def processCandidates (header target : List Nat) : List Nat → Option Nat × List MLog
  | [] => (none, [])
  | raw :: rest =>
    let nonce := swapBytes32 raw
    if nonce = 0 then processCandidates header target rest
    else
      let hash := lotus_hash (spliceNonce header nonce)
      let logs : List MLog := ⟨Sev.info, Msg.candidate (result_nonce header nonce) hash.reverse⟩ ::
        (if hash.getLast? = some 0 then [] else [⟨Sev.bug, Msg.bugNoLeadingZero⟩])
      if hashMeetsTarget hash target then (some (result_nonce header nonce), logs)
      else ((processCandidates header target rest).1, logs ++ (processCandidates header target rest).2)

/-- `Miner::find_nonce`, host-visible behaviour.  `vec` is the output buffer
read back from the device.  The outer `Option` is `none` exactly when
`num_nonces_per_search().try_into::<u32>().unwrap()` would panic; otherwise
the result is the returned `Ok` value paired with the emitted log entries:
overflow of `nonce_idx * nonces_per_dispatch` logs an error and yields no
nonce; a zero sentinel at slot `0x80` yields no nonce silently; otherwise the
first `0x7f` slots are scanned. -/
def find_nonce (s : MiningSettings) (w : Work) (vec : List Nat) : Option (Option Nat × List MLog) :=
  if num_nonces_per_search s < 4294967296 then
    match checked_mul_u32 w.nonce_idx (num_nonces_per_search s) with
    | none => some (none, [⟨Sev.error, Msg.nonceBaseOverflow⟩])
    | some _ =>
      if vec.get! 128 ≠ 0 then some (processCandidates w.header w.target (vec.take 127))
      else some (none, [])
  else none

/-- `block.rs::Block`. -/
structure Block where
  header : List Nat
  body : List Nat
  target : List Nat
deriving DecidableEq

/-- `Block::prev_hash`: header bytes 0..32. -/
def Block.prev_hash (b : Block) : List Nat := b.header.take 32

/-- `lib.rs::BlockState`. -/
structure BlockState where
  current_work : Work
  current_block : Option Block
  next_block : Option Block
  extra_nonce : Nat
deriving DecidableEq

/-- The successful tail of `lib.rs::update_next_block` after the template
has been fetched and decoded into `block`: log a tip-switch when a current
block exists and its previous-block hash differs, log mining start when no
current block exists, then increment `extra_nonce` and overwrite
`next_block`. -/
def update_next_block (st : BlockState) (block : Block) : BlockState × List MLog :=
  let logs : List MLog :=
    match st.current_block with
    | some current_block =>
      if current_block.prev_hash ≠ block.prev_hash then
        [⟨Sev.info, Msg.switchedTip block.prev_hash.reverse⟩]
      else []
    | none => [⟨Sev.info, Msg.startedMining block.prev_hash.reverse⟩]
  ({ st with extra_nonce := st.extra_nonce + 1, next_block := some block }, logs)

/-- The adoption step at the top of `lib.rs::mine_some_nonces`: when a
pending `next_block` exists, take it, derive `current_work` from its header
and target, and store it as `current_block`. -/
def adopt_next_block (st : BlockState) : BlockState :=
  match st.next_block with
  | some next_block =>
    { st with
      current_work := Work.from_header next_block.header next_block.target,
      current_block := some next_block,
      next_block := none }
  | none => st

/-- The response routing of `lib.rs::submit_block` after the node's response
has been decoded: `result` is the parsed `submitblock` result field.  The
function always finishes with `Ok(())`; the emitted log entries depend on
the rejection reason. -/
def submit_block (result : Option String) : Except String Unit × List MLog :=
  match result with
  | none => (Except.ok (), [⟨Sev.info, Msg.blockAccepted⟩])
  | some reason =>
    (Except.ok (),
      ⟨Sev.error, Msg.rejectedBlock reason⟩ ::
        (if reason = "inconclusive" then [⟨Sev.warn, Msg.inconclusiveHint⟩]
         else [⟨Sev.error, Msg.misconfiguredHint⟩]))

/-- Concrete settings for witnesses: one lane, one inner iteration. -/
def sW : MiningSettings := ⟨256, 1, 1, "lotus_og", 0, [0]⟩

/-- Concrete settings for overflow witnesses: `kernel_size = 2^24`,
`inner_iter_size = 16`, so one dispatch covers `2^28` nonces. -/
def sOvf : MiningSettings := ⟨256, 16777216, 16, "lotus_og", 0, [0]⟩

/-- Concrete work for witnesses: all-zero header, all-255 target. -/
def wW : Work := ⟨List.replicate 160 0, List.replicate 32 255, 0⟩

/-- Concrete work for overflow witnesses: slice index 16. -/
def wOvf : Work := ⟨List.replicate 160 0, List.replicate 32 255, 16⟩

/-- Concrete work for the advisory-signal witness: slice index 255. -/
def wAdv : Work := ⟨List.replicate 160 0, List.replicate 32 255, 255⟩

/-- Concrete device output for witnesses: candidate word 1 in slot 0,
sentinel 1 in slot `0x80`. -/
def vecW : List Nat := 1 :: (List.replicate 127 0 ++ [1])

/-- Concrete block for witnesses. -/
def blkW : Block := ⟨List.replicate 160 7, [], List.replicate 32 255⟩

/-- Concrete block state for witnesses: no current block, `blkW` pending. -/
def stW : BlockState :=
  ⟨Work.from_header (List.replicate 160 0) (List.replicate 32 0), none, some blkW, 5⟩

/-! Helper lemmas. -/

theorem beNum_lt_pow {l : List Nat} (hb : ∀ b ∈ l, b < 256) : beNum l < 256 ^ l.length := by
  induction l with
  | nil => simp [beNum]
  | cons b rest ih =>
    have hbb : b < 256 := hb b (List.mem_cons_self _ _)
    have hr : beNum rest < 256 ^ rest.length := ih (fun x hx => hb x (List.mem_cons_of_mem _ hx))
    have h1 : b * 256 ^ rest.length ≤ 255 * 256 ^ rest.length :=
      Nat.mul_le_mul_right _ (by omega)
    simp only [beNum, List.length_cons, pow_succ]
    nlinarith [hr, h1]

theorem cmpGo_iff {L : List (Nat × Nat)} (hb : ∀ p ∈ L, p.1 < 256 ∧ p.2 < 256) :
    (cmpGo L = true ↔ beNum (L.map Prod.fst) < beNum (L.map Prod.snd)) := by
  induction L with
  | nil => simp [cmpGo, beNum]
  | cons p rest ih =>
    obtain ⟨h, t⟩ := p
    have hh : h < 256 := (hb _ (List.mem_cons_self _ _)).1
    have ht : t < 256 := (hb _ (List.mem_cons_self _ _)).2
    have hbr : ∀ q ∈ rest, q.1 < 256 ∧ q.2 < 256 := fun q hq => hb q (List.mem_cons_of_mem _ hq)
    have hH : beNum (rest.map Prod.fst) < 256 ^ rest.length := by
      have h1 : ∀ b ∈ rest.map Prod.fst, b < 256 := by
        intro b hbm
        obtain ⟨q, hq, rfl⟩ := List.mem_map.1 hbm
        exact (hbr q hq).1
      have h2 := beNum_lt_pow h1
      rwa [List.length_map] at h2
    have hT : beNum (rest.map Prod.snd) < 256 ^ rest.length := by
      have h1 : ∀ b ∈ rest.map Prod.snd, b < 256 := by
        intro b hbm
        obtain ⟨q, hq, rfl⟩ := List.mem_map.1 hbm
        exact (hbr q hq).2
      have h2 := beNum_lt_pow h1
      rwa [List.length_map] at h2
    simp only [cmpGo, beNum, List.map_cons, List.length_map]
    rcases Nat.lt_trichotomy h t with hlt | heq | hgt
    · rw [if_neg (by omega), if_pos hlt]
      have hstep : (h + 1) * 256 ^ rest.length ≤ t * 256 ^ rest.length :=
        Nat.mul_le_mul_right _ hlt
      constructor
      · intro _
        nlinarith [hH, hstep]
      · intro _
        rfl
    · subst heq
      rw [if_neg (lt_irrefl h), if_neg (lt_irrefl h), ih hbr]
      exact Nat.add_lt_add_iff_left.symm
    · rw [if_pos hgt]
      have hstep : (t + 1) * 256 ^ rest.length ≤ h * 256 ^ rest.length :=
        Nat.mul_le_mul_right _ hgt
      constructor
      · intro habs
        exact absurd habs (by simp)
      · intro habs
        exfalso
        nlinarith [hT, hstep]

theorem hashMeetsTarget_iff {hash target : List Nat} (hlen : hash.length = target.length)
    (hh : ∀ b ∈ hash, b < 256) (ht : ∀ b ∈ target, b < 256) :
    (hashMeetsTarget hash target = true ↔ beNum hash.reverse < beNum target.reverse) := by
  have hbL : ∀ p ∈ (hash.zip target).reverse, p.1 < 256 ∧ p.2 < 256 := by
    intro p hp
    rw [List.mem_reverse] at hp
    rcases p with ⟨x, y⟩
    have hxy := List.of_mem_zip hp
    exact ⟨hh _ hxy.1, ht _ hxy.2⟩
  have e1 : ((hash.zip target).reverse).map Prod.fst = hash.reverse := by
    rw [List.map_reverse, List.map_fst_zip _ _ (le_of_eq hlen)]
  have e2 : ((hash.zip target).reverse).map Prod.snd = target.reverse := by
    rw [List.map_reverse, List.map_snd_zip _ _ (le_of_eq hlen.symm)]
  unfold hashMeetsTarget
  exact (cmpGo_iff hbL).trans (by rw [e1, e2])

theorem mem_beBytes4_lt (w : Nat) : ∀ b ∈ beBytes4 w, b < 256 := by
  intro b hb
  simp only [beBytes4, List.mem_cons, List.not_mem_nil, or_false] at hb
  rcases hb with h | h | h | h <;> subst h <;> omega

theorem mem_serializeHs_lt (x : Hs) : ∀ b ∈ serializeHs x, b < 256 := by
  intro b hb
  simp only [serializeHs, List.mem_append] at hb
  rcases hb with ((((((h | h) | h) | h) | h) | h) | h) | h <;> exact mem_beBytes4_lt _ _ h

theorem serializeHs_length (x : Hs) : (serializeHs x).length = 32 := by
  simp [serializeHs, beBytes4]

theorem sha256_length (msg : List Nat) : (sha256 msg).length = 32 := by
  unfold sha256
  exact serializeHs_length _

theorem mem_sha256_lt (msg : List Nat) : ∀ b ∈ sha256 msg, b < 256 := by
  unfold sha256
  exact mem_serializeHs_lt _

theorem lotus_hash_length (header : List Nat) : (lotus_hash header).length = 32 := by
  unfold lotus_hash
  exact sha256_length _

theorem mem_lotus_hash_lt (header : List Nat) : ∀ b ∈ lotus_hash header, b < 256 := by
  unfold lotus_hash
  exact mem_sha256_lt _

theorem length_toLeBytes (k : Nat) : ∀ n : Nat, (toLeBytes k n).length = k := by
  induction k with
  | zero => intro n; rfl
  | succ k ih => intro n; simp [toLeBytes, ih]

theorem mem_toLeBytes_lt (k : Nat) : ∀ n : Nat, ∀ b ∈ toLeBytes k n, b < 256 := by
  induction k with
  | zero => intro n b hb; simp [toLeBytes] at hb
  | succ k ih =>
    intro n b hb
    simp only [toLeBytes, List.mem_cons] at hb
    rcases hb with h | h
    · omega
    · exact ih _ _ h

theorem toLeBytes_fromLeBytes {l : List Nat} (h : ∀ b ∈ l, b < 256) :
    toLeBytes l.length (fromLeBytes l) = l := by
  induction l with
  | nil => rfl
  | cons b rest ih =>
    have hb : b < 256 := h b (List.mem_cons_self _ _)
    have h1 : (b + 256 * fromLeBytes rest) % 256 = b := by omega
    have h2 : (b + 256 * fromLeBytes rest) / 256 = fromLeBytes rest := by omega
    simp only [List.length_cons, toLeBytes, fromLeBytes, h1, h2]
    rw [ih (fun x hx => h x (List.mem_cons_of_mem _ hx))]

theorem drop_append_of_length {α : Type} {l₁ l₂ : List α} {n : Nat} (h : l₁.length = n) :
    (l₁ ++ l₂).drop n = l₂ := by
  subst h
  exact List.drop_left _ _

theorem take_append_of_length {α : Type} {l₁ l₂ : List α} {n : Nat} (h : l₁.length = n) :
    (l₁ ++ l₂).take n = l₁ := by
  subst h
  exact List.take_left _ _

theorem spliceNonce_drop_take {header : List Nat} (nonce : Nat) (hlen : header.length = 160) :
    ((spliceNonce header nonce).drop 44).take 8 = toLeBytes 4 nonce ++ (header.drop 48).take 4 := by
  unfold spliceNonce
  rw [drop_append_of_length (by simp [List.length_take]; omega)]
  rw [List.take_append_eq_append_take, length_toLeBytes]
  rw [List.take_of_length_le (by rw [length_toLeBytes]; omega)]

theorem take4_drop48_append {header : List Nat} :
    (header.drop 48).take 4 ++ header.drop 52 = header.drop 48 := by
  have hd : (header.drop 48).drop 4 = header.drop 52 := by
    rw [List.drop_drop]
  rw [← hd, List.take_append_drop]

theorem set_big_nonce_result (w : Work) (nonce : Nat) (hlen : w.header.length = 160)
    (hb : ∀ b ∈ w.header, b < 256) :
    (w.set_big_nonce (result_nonce w.header nonce)).header = spliceNonce w.header nonce := by
  have hsplit : ((spliceNonce w.header nonce).drop 44).take 8 =
      toLeBytes 4 nonce ++ (w.header.drop 48).take 4 := spliceNonce_drop_take nonce hlen
  have hlen8 : (((spliceNonce w.header nonce).drop 44).take 8).length = 8 := by
    rw [hsplit]
    simp [length_toLeBytes, List.length_take, List.length_drop]
    omega
  have hbnd : ∀ b ∈ ((spliceNonce w.header nonce).drop 44).take 8, b < 256 := by
    rw [hsplit]
    intro b hbm
    rcases List.mem_append.1 hbm with h1 | h2
    · exact mem_toLeBytes_lt _ _ _ h1
    · exact hb _ (List.drop_subset _ _ (List.take_subset _ _ h2))
  have hround : toLeBytes 8 (fromLeBytes (((spliceNonce w.header nonce).drop 44).take 8)) =
      ((spliceNonce w.header nonce).drop 44).take 8 := by
    have h0 := toLeBytes_fromLeBytes hbnd
    rwa [hlen8] at h0
  show w.header.take 44 ++ (toLeBytes 8 (result_nonce w.header nonce) ++ w.header.drop 52) = _
  unfold result_nonce
  rw [hround, hsplit, List.append_assoc, take4_drop48_append]
  rfl

theorem processCandidates_fst_some {header target : List Nat} {n : Nat} :
    ∀ {cands : List Nat}, (processCandidates header target cands).1 = some n →
    ∃ raw ∈ cands, raw ≠ 0 ∧ swapBytes32 raw ≠ 0 ∧ n = result_nonce header (swapBytes32 raw) ∧
      hashMeetsTarget (lotus_hash (spliceNonce header (swapBytes32 raw))) target = true := by
  intro cands
  induction cands with
  | nil =>
    intro h
    simp [processCandidates] at h
  | cons raw rest ih =>
    intro h
    by_cases hz : swapBytes32 raw = 0
    · rw [processCandidates, if_pos hz] at h
      obtain ⟨r, hr, hprops⟩ := ih h
      exact ⟨r, List.mem_cons_of_mem _ hr, hprops⟩
    · simp only [processCandidates, if_neg hz] at h
      by_cases hm : hashMeetsTarget (lotus_hash (spliceNonce header (swapBytes32 raw))) target
      · rw [if_pos hm] at h
        simp only [Option.some.injEq] at h
        refine ⟨raw, List.mem_cons_self _ _, ?_, hz, h.symm, hm⟩
        intro h0
        subst h0
        exact hz rfl
      · rw [if_neg hm] at h
        obtain ⟨r, hr, hprops⟩ := ih h
        exact ⟨r, List.mem_cons_of_mem _ hr, hprops⟩

theorem find_nonce_some_inv {s : MiningSettings} {w : Work} {vec : List Nat} {n : Nat}
    (h : Option.map Prod.fst (find_nonce s w vec) = some (some n)) :
    (processCandidates w.header w.target (vec.take 127)).1 = some n := by
  unfold find_nonce at h
  by_cases h1 : num_nonces_per_search s < 4294967296
  · rw [if_pos h1] at h
    cases hc : checked_mul_u32 w.nonce_idx (num_nonces_per_search s) with
    | none =>
      rw [hc] at h
      simp at h
    | some base =>
      rw [hc] at h
      by_cases h2 : vec.get! 128 ≠ 0
      · rw [if_pos h2] at h
        simpa using h
      · rw [if_neg h2] at h
        simp at h
  · rw [if_neg h1] at h
    simp at h

/-! Claim theorems. -/

set_option maxRecDepth 1000000

set_option maxHeartbeats 4000000

/-- Claim C4: `lotus_hash` is a pure deterministic function from a header to
a 32-byte digest: it hashes header bytes 52.., prepends header bytes 32..52
and hashes again, prepends header bytes 0..32 and hashes a final time; on
the fixed test-vector header it produces, after byte reversal, the hash
`000000006275dc5039da85620773f3223d629759495f80b49a381d79cae77c11`. -/
theorem lotus_hash_spec :
    (∀ header : List Nat,
       lotus_hash header =
         sha256 (header.take 32 ++ sha256 ((header.drop 32).take 20 ++ sha256 (header.drop 52)))) ∧
    (∀ header : List Nat, (lotus_hash header).length = 32) ∧
    (lotus_hash testHeader).reverse = testHeaderHash := by
  refine ⟨fun header => rfl, lotus_hash_length, ?_⟩
  decide

/-- Claim C2: when `nonce_idx * nonces_per_dispatch` overflows `u32`,
`find_nonce` logs an error and returns `Ok(None)` without scanning any
device output: the base offset is computed with `checked_mul`, never by
wrapping arithmetic, so an already-searched range is not silently
re-scanned.  The hypothesis `hnpd` states that `nonces_per_dispatch` itself
fits in `u32`, the precondition of the source's `try_into().unwrap()`. -/
theorem find_nonce_overflow_guard (s : MiningSettings) (w : Work) (vec : List Nat)
    (hnpd : num_nonces_per_search s < 4294967296)
    (hovf : 4294967296 ≤ w.nonce_idx * num_nonces_per_search s) :
    find_nonce s w vec = some (none, [⟨Sev.error, Msg.nonceBaseOverflow⟩]) := by
  unfold find_nonce
  rw [if_pos hnpd]
  have hc : checked_mul_u32 w.nonce_idx (num_nonces_per_search s) = none := by
    unfold checked_mul_u32
    rw [if_neg (by omega)]
  rw [hc]

/-- Witness for C2: with `kernel_size = 2^24`, `inner_iter_size = 16` and
`nonce_idx = 16`, the base multiplication overflows and `find_nonce` skips
the dispatch with an error log. -/
theorem find_nonce_overflow_guard_witness :
    num_nonces_per_search sOvf < 4294967296 ∧
    4294967296 ≤ wOvf.nonce_idx * num_nonces_per_search sOvf ∧
    find_nonce sOvf wOvf [] = some (none, [⟨Sev.error, Msg.nonceBaseOverflow⟩]) :=
  ⟨by decide, by decide, find_nonce_overflow_guard sOvf wOvf [] (by decide) (by decide)⟩

/-- Claim C3: `has_nonces_left` is true exactly when `nonce_idx *
kernel_size` does not overflow `u32`; it is only advisory: there are
settings and work for which it is true while the authoritative guard inside
`find_nonce`, which multiplies `nonce_idx` by `kernel_size *
inner_iter_size`, overflows and skips the dispatch. -/
theorem has_nonces_left_spec (s : MiningSettings) (w : Work) :
    (has_nonces_left s w = true ↔ w.nonce_idx * s.kernel_size < 4294967296) ∧
    ∃ s1 w1, has_nonces_left s1 w1 = true ∧
      num_nonces_per_search s1 < 4294967296 ∧
      4294967296 ≤ w1.nonce_idx * num_nonces_per_search s1 ∧
      ∀ vec, find_nonce s1 w1 vec = some (none, [⟨Sev.error, Msg.nonceBaseOverflow⟩]) := by
  constructor
  · have hd : has_nonces_left s w = decide (w.nonce_idx * s.kernel_size < 4294967296) := by
      unfold has_nonces_left checked_mul_u32
      by_cases hc : w.nonce_idx * s.kernel_size < 4294967296 <;> simp [hc]
    rw [hd]
    simp
  · refine ⟨sOvf, wAdv, by decide, by decide, by decide, ?_⟩
    intro vec
    unfold find_nonce
    rw [if_pos (by decide)]
    have hc : checked_mul_u32 wAdv.nonce_idx (num_nonces_per_search sOvf) = none := by decide
    rw [hc]

/-- Witness for C3, instantiated at concrete settings and work. -/
theorem has_nonces_left_spec_witness :
    (has_nonces_left sW wW = true ↔ wW.nonce_idx * sW.kernel_size < 4294967296) ∧
    ∃ s1 w1, has_nonces_left s1 w1 = true ∧
      num_nonces_per_search s1 < 4294967296 ∧
      4294967296 ≤ w1.nonce_idx * num_nonces_per_search s1 ∧
      ∀ vec, find_nonce s1 w1 vec = some (none, [⟨Sev.error, Msg.nonceBaseOverflow⟩]) :=
  has_nonces_left_spec sW wW

/-- Claim C6: routing of the decoded `submitblock` response: a null result
logs the acceptance at `Info`; the exact reason `"inconclusive"` logs the
rejection at `Error` followed by the transient-orphan hint at `Warn`; any
other reason logs the rejection at `Error` followed by the
misconfiguration hint at `Error`; in every case the function returns `Ok`. -/
theorem submit_block_routing (reason : String) (hr : reason ≠ "inconclusive") :
    submit_block none = (Except.ok (), [⟨Sev.info, Msg.blockAccepted⟩]) ∧
    submit_block (some "inconclusive") =
      (Except.ok (), [⟨Sev.error, Msg.rejectedBlock "inconclusive"⟩,
        ⟨Sev.warn, Msg.inconclusiveHint⟩]) ∧
    submit_block (some reason) =
      (Except.ok (), [⟨Sev.error, Msg.rejectedBlock reason⟩,
        ⟨Sev.error, Msg.misconfiguredHint⟩]) := by
  refine ⟨rfl, rfl, ?_⟩
  simp [submit_block, hr]

/-- Witness for C6 at the concrete rejection reason `"bad-blk-header"`. -/
theorem submit_block_routing_witness :
    ("bad-blk-header" ≠ "inconclusive") ∧
    (submit_block none = (Except.ok (), [⟨Sev.info, Msg.blockAccepted⟩]) ∧
     submit_block (some "inconclusive") =
       (Except.ok (), [⟨Sev.error, Msg.rejectedBlock "inconclusive"⟩,
         ⟨Sev.warn, Msg.inconclusiveHint⟩]) ∧
     submit_block (some "bad-blk-header") =
       (Except.ok (), [⟨Sev.error, Msg.rejectedBlock "bad-blk-header"⟩,
         ⟨Sev.error, Msg.misconfiguredHint⟩])) :=
  ⟨by decide, submit_block_routing "bad-blk-header" (by decide)⟩

/-- Claim C8: `Work::from_header` always constructs a `Work` with
`nonce_idx = 0`, so whenever the search loop adopts a pending `next_block`
the freshly derived `current_work` restarts the slice search at index 0. -/
theorem adopt_resets_nonce_idx (st : BlockState) (b : Block) :
    (∀ header target : List Nat, (Work.from_header header target).nonce_idx = 0) ∧
    (st.next_block = some b →
      (adopt_next_block st).current_work = Work.from_header b.header b.target ∧
      (adopt_next_block st).current_work.nonce_idx = 0) := by
  refine ⟨fun _ _ => rfl, fun h => ?_⟩
  unfold adopt_next_block
  rw [h]
  exact ⟨rfl, rfl⟩

/-- Witness for C8 at a concrete pending block. -/
theorem adopt_resets_nonce_idx_witness :
    stW.next_block = some blkW ∧
    (adopt_next_block stW).current_work = Work.from_header blkW.header blkW.target ∧
    (adopt_next_block stW).current_work.nonce_idx = 0 :=
  ⟨rfl, (adopt_resets_nonce_idx stW blkW).2 rfl⟩

/-- Claim C1: the byte-by-byte target comparison of `find_nonce` — walked
most significant byte first, accepting at the first strictly smaller hash
byte, rejecting at the first strictly greater one and on full equality —
coincides with the numeric comparison `hash < target` of the display-order
(reversed) byte strings read as unsigned 256-bit big-endian numbers, and
any nonce returned by `find_nonce` corresponds to a spliced candidate whose
`lotus_hash` is strictly below the target in that order. -/
theorem find_nonce_below_target (s : MiningSettings) (w : Work) (vec : List Nat) (n : Nat)
    (htl : w.target.length = 32) (htb : ∀ b ∈ w.target, b < 256) :
    (∀ hash target : List Nat, hash.length = target.length →
       (∀ b ∈ hash, b < 256) → (∀ b ∈ target, b < 256) →
       (hashMeetsTarget hash target = true ↔ beNum hash.reverse < beNum target.reverse)) ∧
    (Option.map Prod.fst (find_nonce s w vec) = some (some n) →
       ∃ nonce, nonce ≠ 0 ∧ n = result_nonce w.header nonce ∧
         beNum (lotus_hash (spliceNonce w.header nonce)).reverse < beNum w.target.reverse) := by
  constructor
  · intro hash target hlen hh ht
    exact hashMeetsTarget_iff hlen hh ht
  · intro hf
    obtain ⟨raw, _, _, hswap, hn, hmeets⟩ := processCandidates_fst_some (find_nonce_some_inv hf)
    refine ⟨swapBytes32 raw, hswap, hn, ?_⟩
    have hlen : (lotus_hash (spliceNonce w.header (swapBytes32 raw))).length = w.target.length := by
      rw [lotus_hash_length, htl]
    exact (hashMeetsTarget_iff hlen (mem_lotus_hash_lt _) htb).1 hmeets

/-- Witness for C1: on the all-zero header with all-255 target and a device
output containing raw candidate word 1, `find_nonce` returns nonce
16777216 and its hash is numerically below the target. -/
theorem find_nonce_below_target_witness :
    wW.target.length = 32 ∧ (∀ b ∈ wW.target, b < 256) ∧
    Option.map Prod.fst (find_nonce sW wW vecW) = some (some 16777216) ∧
    ((∀ hash target : List Nat, hash.length = target.length →
       (∀ b ∈ hash, b < 256) → (∀ b ∈ target, b < 256) →
       (hashMeetsTarget hash target = true ↔ beNum hash.reverse < beNum target.reverse)) ∧
     (Option.map Prod.fst (find_nonce sW wW vecW) = some (some 16777216) →
       ∃ nonce, nonce ≠ 0 ∧ 16777216 = result_nonce wW.header nonce ∧
         beNum (lotus_hash (spliceNonce wW.header nonce)).reverse < beNum wW.target.reverse)) :=
  ⟨by decide, by decide, by decide,
   find_nonce_below_target sW wW vecW 16777216 (by decide) (by decide)⟩

/-- Claim C5: in the successful tail of `update_next_block`, a tip-switch
event is logged exactly when a current block exists and its previous-block
hash differs from the new block's, a mining-start event is logged exactly
when no current block exists, nothing is logged when the previous-block
hashes agree, and in every successful case `extra_nonce` grows by one and
`next_block` is overwritten with the new block. -/
theorem update_next_block_spec (st : BlockState) (block : Block) :
    ((⟨Sev.info, Msg.switchedTip block.prev_hash.reverse⟩ : MLog) ∈ (update_next_block st block).2 ↔
       ∃ cur, st.current_block = some cur ∧ cur.prev_hash ≠ block.prev_hash) ∧
    ((⟨Sev.info, Msg.startedMining block.prev_hash.reverse⟩ : MLog) ∈ (update_next_block st block).2 ↔
       st.current_block = none) ∧
    (∀ cur, st.current_block = some cur → cur.prev_hash = block.prev_hash →
       (update_next_block st block).2 = []) ∧
    (update_next_block st block).1.extra_nonce = st.extra_nonce + 1 ∧
    (update_next_block st block).1.next_block = some block := by
  cases hcb : st.current_block with
  | none =>
    refine ⟨?_, ?_, ?_, rfl, rfl⟩
    · simp [update_next_block, hcb]
    · simp [update_next_block, hcb]
    · intro cur hcur
      exact absurd hcur (by simp)
  | some cur =>
    by_cases heq : cur.prev_hash = block.prev_hash
    · refine ⟨?_, ?_, ?_, rfl, rfl⟩
      · simp [update_next_block, hcb, heq]
      · simp [update_next_block, hcb, heq]
      · intro cur' hcur' _
        simp [update_next_block, hcb, heq]
    · refine ⟨?_, ?_, ?_, rfl, rfl⟩
      · simp [update_next_block, hcb, heq]
      · simp [update_next_block, hcb, heq]
      · intro cur' hcur' heq'
        injection hcur' with hcc
        subst hcc
        exact absurd heq' heq

/-- Witness for C5 at a concrete state with no current block. -/
theorem update_next_block_spec_witness :
    ((⟨Sev.info, Msg.switchedTip blkW.prev_hash.reverse⟩ : MLog) ∈ (update_next_block stW blkW).2 ↔
       ∃ cur, stW.current_block = some cur ∧ cur.prev_hash ≠ blkW.prev_hash) ∧
    ((⟨Sev.info, Msg.startedMining blkW.prev_hash.reverse⟩ : MLog) ∈ (update_next_block stW blkW).2 ↔
       stW.current_block = none) ∧
    (∀ cur, stW.current_block = some cur → cur.prev_hash = blkW.prev_hash →
       (update_next_block stW blkW).2 = []) ∧
    (update_next_block stW blkW).1.extra_nonce = stW.extra_nonce + 1 ∧
    (update_next_block stW blkW).1.next_block = some blkW :=
  update_next_block_spec stW blkW

/-- Claim C7: when a nonzero candidate's hash fails the structural sanity
invariant — its final byte in header order, the leading byte after reversal
to display order, is not zero — a `Bug`-severity entry is logged and the
candidate evaluation continues normally: the loop's outcome is the usual
target comparison on this candidate followed by the remaining candidates,
with no abort and no error. -/
theorem find_nonce_sanity_bug_log (header target : List Nat) (raw : Nat) (rest : List Nat)
    (hnz : swapBytes32 raw ≠ 0)
    (hlast : ¬ (lotus_hash (spliceNonce header (swapBytes32 raw))).getLast? = some 0) :
    (⟨Sev.bug, Msg.bugNoLeadingZero⟩ : MLog) ∈ (processCandidates header target (raw :: rest)).2 ∧
    (processCandidates header target (raw :: rest)).1 =
      (if hashMeetsTarget (lotus_hash (spliceNonce header (swapBytes32 raw))) target
       then some (result_nonce header (swapBytes32 raw))
       else (processCandidates header target rest).1) := by
  by_cases hm : hashMeetsTarget (lotus_hash (spliceNonce header (swapBytes32 raw))) target
  · constructor
    · simp [processCandidates, hnz, hlast, hm]
    · simp [processCandidates, hnz, hm]
  · constructor
    · simp [processCandidates, hnz, hlast, hm]
    · simp [processCandidates, hnz, hm]

/-- Witness for C7: on the all-zero header the candidate from raw word 1
hashes with final byte 11, so the bug entry is logged and the evaluation
continues. -/
theorem find_nonce_sanity_bug_log_witness :
    swapBytes32 1 ≠ 0 ∧
    (¬ (lotus_hash (spliceNonce wW.header (swapBytes32 1))).getLast? = some 0) ∧
    ((⟨Sev.bug, Msg.bugNoLeadingZero⟩ : MLog) ∈ (processCandidates wW.header wW.target [1]).2 ∧
     (processCandidates wW.header wW.target [1]).1 =
       (if hashMeetsTarget (lotus_hash (spliceNonce wW.header (swapBytes32 1))) wW.target
        then some (result_nonce wW.header (swapBytes32 1))
        else (processCandidates wW.header wW.target []).1)) :=
  ⟨by decide, by decide,
   find_nonce_sanity_bug_log wW.header wW.target 1 [] (by decide) (by decide)⟩

/-- Claim C9: `set_big_nonce n` writes exactly the eight little-endian
bytes of `n` into header bytes 44..52 and changes nothing else — header
bytes 0..44 and 52..160, the target and `nonce_idx` are unchanged — and
applying `set_big_nonce` with the nonce returned by `find_nonce`
reconstructs exactly the spliced header that was hashed during
verification. -/
theorem set_big_nonce_spec (s : MiningSettings) (w : Work) (vec : List Nat) (n : Nat)
    (hlen : w.header.length = 160) (hb : ∀ b ∈ w.header, b < 256) :
    ((w.set_big_nonce n).header.take 44 = w.header.take 44 ∧
     (w.set_big_nonce n).header.drop 52 = w.header.drop 52 ∧
     ((w.set_big_nonce n).header.drop 44).take 8 = toLeBytes 8 n ∧
     (w.set_big_nonce n).target = w.target ∧
     (w.set_big_nonce n).nonce_idx = w.nonce_idx) ∧
    (Option.map Prod.fst (find_nonce s w vec) = some (some n) →
      ∃ raw ∈ vec.take 127, swapBytes32 raw ≠ 0 ∧
        n = result_nonce w.header (swapBytes32 raw) ∧
        (w.set_big_nonce n).header = spliceNonce w.header (swapBytes32 raw)) := by
  have htk : (w.header.take 44).length = 44 := by
    simp [List.length_take]
    omega
  constructor
  · refine ⟨?_, ?_, ?_, rfl, rfl⟩
    · exact take_append_of_length htk
    · show (w.header.take 44 ++ (toLeBytes 8 n ++ w.header.drop 52)).drop 52 = _
      rw [← List.append_assoc]
      exact drop_append_of_length (by simp [htk, length_toLeBytes])
    · show ((w.header.take 44 ++ (toLeBytes 8 n ++ w.header.drop 52)).drop 44).take 8 = _
      rw [drop_append_of_length htk]
      exact take_append_of_length (length_toLeBytes _ _)
  · intro hf
    obtain ⟨raw, hmem, _, hswap, hn, _⟩ := processCandidates_fst_some (find_nonce_some_inv hf)
    refine ⟨raw, hmem, hswap, hn, ?_⟩
    rw [hn]
    exact set_big_nonce_result w (swapBytes32 raw) hlen hb

/-- Witness for C9 at the concrete accepting run of `find_nonce`. -/
theorem set_big_nonce_spec_witness :
    wW.header.length = 160 ∧ (∀ b ∈ wW.header, b < 256) ∧
    Option.map Prod.fst (find_nonce sW wW vecW) = some (some 16777216) ∧
    (((wW.set_big_nonce 16777216).header.take 44 = wW.header.take 44 ∧
      (wW.set_big_nonce 16777216).header.drop 52 = wW.header.drop 52 ∧
      ((wW.set_big_nonce 16777216).header.drop 44).take 8 = toLeBytes 8 16777216 ∧
      (wW.set_big_nonce 16777216).target = wW.target ∧
      (wW.set_big_nonce 16777216).nonce_idx = wW.nonce_idx) ∧
     (Option.map Prod.fst (find_nonce sW wW vecW) = some (some 16777216) →
       ∃ raw ∈ vecW.take 127, swapBytes32 raw ≠ 0 ∧
         16777216 = result_nonce wW.header (swapBytes32 raw) ∧
         (wW.set_big_nonce 16777216).header = spliceNonce wW.header (swapBytes32 raw))) :=
  ⟨by decide, by decide, by decide,
   set_big_nonce_spec sW wW vecW 16777216 (by decide) (by decide)⟩

/-- Claim C10: `find_nonce` scans only output slots 0..127 (indices below
`0x7f`) after checking the sentinel at index `0x80` — a zero sentinel ends
the call with no candidate — the candidate loop skips every zero slot
without evaluating it, and any returned nonce comes from a nonzero raw word
among the first `0x7f` slots. -/
theorem candidate_slots_spec (s : MiningSettings) (w : Work) (vec : List Nat) (n : Nat)
    (hnpd : num_nonces_per_search s < 4294967296)
    (hbase : w.nonce_idx * num_nonces_per_search s < 4294967296) :
    (vec.get! 128 = 0 → find_nonce s w vec = some (none, [])) ∧
    (∀ header target rest,
       processCandidates header target (0 :: rest) = processCandidates header target rest) ∧
    (Option.map Prod.fst (find_nonce s w vec) = some (some n) →
      ∃ raw ∈ vec.take 127, raw ≠ 0 ∧ swapBytes32 raw ≠ 0 ∧
        n = result_nonce w.header (swapBytes32 raw)) := by
  refine ⟨?_, ?_, ?_⟩
  · intro h0
    unfold find_nonce
    rw [if_pos hnpd]
    have hc : checked_mul_u32 w.nonce_idx (num_nonces_per_search s) =
        some (w.nonce_idx * num_nonces_per_search s) := by
      unfold checked_mul_u32
      rw [if_pos hbase]
    rw [hc, if_neg (fun hne => hne h0)]
  · intro header target rest
    have hz : swapBytes32 0 = 0 := rfl
    simp [processCandidates, hz]
  · intro hf
    obtain ⟨raw, hmem, hraw0, hswap, hn, _⟩ := processCandidates_fst_some (find_nonce_some_inv hf)
    exact ⟨raw, hmem, hraw0, hswap, hn⟩

/-- Witness for C10 at the concrete accepting run of `find_nonce`. -/
theorem candidate_slots_spec_witness :
    num_nonces_per_search sW < 4294967296 ∧
    wW.nonce_idx * num_nonces_per_search sW < 4294967296 ∧
    ((vecW.get! 128 = 0 → find_nonce sW wW vecW = some (none, [])) ∧
     (∀ header target rest,
        processCandidates header target (0 :: rest) = processCandidates header target rest) ∧
     (Option.map Prod.fst (find_nonce sW wW vecW) = some (some 16777216) →
       ∃ raw ∈ vecW.take 127, raw ≠ 0 ∧ swapBytes32 raw ≠ 0 ∧
         16777216 = result_nonce wW.header (swapBytes32 raw))) :=
  ⟨by decide, by decide,
   candidate_slots_spec sW wW vecW 16777216 (by decide) (by decide)⟩

end LotusMiner
